import Mathlib

/-!
Verification development for the IdleLoops predictor userscript
(`idleloops-predictor.user.js`).  JavaScript objects are embedded as
association lists keyed by `String`, JavaScript numbers as `ℚ`, and the
host-supplied globals (`getLevelFromExp`, `getTotalBonusXP`, historical
action totals, and the chronomancy/ritual time conversion) as fields of an
abstract `Host` structure.  Unbounded `for`/`while` loops of the source are
embedded as fuel-indexed recursions returning `Option`; `none` means the
fuel ran out before the source loop terminated.
-/

namespace IdleLoops

/-- Lookup in an association list (JS object property read). -/
def alookup {α : Type} : List (String × α) → String → Option α
  | [], _ => none
  | (k', v) :: t, k => if k' = k then some v else alookup t k

/-- JS object property write: replace the first binding of the key, or append
a fresh binding when the key is absent. -/
def aset {α : Type} : List (String × α) → String → α → List (String × α)
  | [], k, v => [(k, v)]
  | (k', v') :: t, k, v => if k' = k then (k', v) :: t else (k', v') :: aset t k v

/-- Numeric property read defaulting to `0` (the predictor initializes every
resource it touches to `0` before use; reads of genuinely absent keys would be
`NaN` in JavaScript and are only relied upon under presence hypotheses). -/
def aget (l : List (String × ℚ)) (k : String) : ℚ := (alookup l k).getD 0

/-- Host-environment collaborators consumed (not implemented) by the predictor:
experience curves, bonus-XP multipliers, the global stat list, the historical
completed-loop totals (`towns[townNum]['total' + varName]`), and the
chronomancy/ritual mana-to-time conversion of `Predictor.update` (which reads
the host globals `getSkillLevel`/`getBuffLevel` and uses a real-valued power,
so it is kept abstract as a function of the current town and the mana spent). -/
structure Host where
  statList : List String
  lvl : ℚ → ℚ
  bonusXP : String → ℚ
  histTotal : String → ℕ
  timeConv : ℚ → ℚ → ℚ

/-- The slice of an IdleLoops action object used by the predictor:
`stats` (stat-name → weight), `expMult`, `manaCost()` and `segments`. -/
structure Action where
  stats : List (String × ℚ)
  expMult : ℚ
  manaCost : ℚ
  segments : ℕ
deriving DecidableEq

/-- `Prediction.updateTicks`: folds over the global stat list, summing
`a.stats[i] / (1 + getLevelFromExp(s[i]) / 100)` for every stat present in
both the action's `stats` and the accumulated experience map `s`, then takes
`Math.ceil(a.manaCost() * cost - .000001)`. -/
def updateTicks (h : Host) (a : Action) (s : List (String × ℚ)) : ℤ :=
  ⌈a.manaCost *
    (h.statList.foldl (fun cost i =>
      cost + match alookup a.stats i, alookup s i with
        | some w, some e => w / (1 + h.lvl e / 100)
        | _, _ => 0) 0) - 1 / 1000000⌉

/-- The tick-count cost exactly as the specification words it: a sum over the
stat names present in both `rule.statCost` and `stats` of
`rule.statCost[stat] / (1 + level(stats[stat]) / 100)`. -/
def costSpec (h : Host) (a : Action) (s : List (String × ℚ)) : ℚ :=
  (a.stats.map (fun kv =>
    match alookup s kv.1 with
    | some e => kv.2 / (1 + h.lvl e / 100)
    | none => 0)).sum

/-- `Prediction.exp`: for every stat in the global stat list present in both
the action's `stats` and the experience map, add
`a.stats[i] * a.expMult * (a.manaCost() / ticks) * getTotalBonusXP(i)`. -/
def applyExp (h : Host) (a : Action) (ticksQ : ℚ) (s : List (String × ℚ)) :
    List (String × ℚ) :=
  h.statList.foldl (fun s i =>
    match alookup a.stats i, alookup s i with
    | some w, some e => aset s i (e + w * a.expMult * (a.manaCost / ticksQ) * h.bonusXP i)
    | _, _ => s) s

/-- `Koviko.Predictor~Progression`: `progress` is partial progress beyond the
segments counted in `completed`; `completed` counts segments fully finished;
`total` counts fully completed loops. -/
structure Progression where
  progress : ℚ
  completed : ℕ
  total : ℕ
deriving DecidableEq

/-- The optional `effect.segment` / `effect.loop` / `effect.end` closures of a
loop rule, acting on the mutable (resources, skills) state `σ`. -/
structure LoopEff (σ : Type) where
  onSeg : Option (σ → σ)
  onLoop : Option (σ → σ)
  onEnd : Option (σ → σ)

/-- A loop rule as `Predictor.tick` consumes it: the optional `max` closure
(number of loops; multiplied by `segments` to obtain `maxSegments`), the
`cost` closure (which reads the live `Progression` on every call, since the
source closure captures the mutable object), and the `tick` closure resolved
against the progression, accumulated stats and the (resources, skills)
state. -/
structure LoopDef (σ : Type) where
  max : Option ℕ
  cost : Progression → ℤ → ℚ
  tickF : Progression → List (String × ℚ) → σ → ℤ → ℚ
  eff : LoopEff σ

def applyOpt {σ : Type} (f : Option (σ → σ)) (st : σ) : σ :=
  match f with
  | some g => g st
  | none => st

/-- Instrumentation: `1` when an optional effect is present (and hence invoked
by the walk), `0` otherwise. -/
def cntOpt {σ : Type} (f : Option (σ → σ)) : ℕ :=
  if f.isSome then 1 else 0

/-- `segment < maxSegments`, where `maxSegments` is `Infinity` when the rule
has no `max`. -/
def segLT (s : ℤ) : Option ℕ → Bool
  | none => true
  | some m => decide (s < (m : ℤ))

/-- The segment re-derivation loop of `Predictor.tick`:
`for (; progress >= loopCost(segment); progress -= loopCost(segment++));`.
Fuel-indexed; `none` when the source loop would run longer than the fuel. -/
def seek (c : ℤ → ℚ) : ℕ → ℤ → ℚ → Option (ℤ × ℚ)
  | 0, s, p => if c s ≤ p then none else some (s, p)
  | fuel + 1, s, p => if c s ≤ p then seek c fuel (s + 1) (p - c s) else some (s, p)

/-- State of the post-tick walk over completed segments: the live progression,
the local `segment` index, the local remaining `progress`, the effect target
state, and instrumentation counters for `effect.loop` / `effect.segment`
invocations. -/
structure WalkSt (σ : Type) where
  prog : Progression
  seg : ℤ
  rem : ℚ
  st : σ
  nLoop : ℕ
  nSeg : ℕ
deriving DecidableEq

/-- The segment-consuming walk of `Predictor.tick`:
`for (; progress >= loopCost(segment) && segment < maxSegments; progress -= loopCost(segment++)) { ... }`.
When the body wraps a completed loop it resets `progression.progress`, adds
`totalSegments` to `completed`, increments `total`, subtracts `totalSegments`
from the local segment index and fires `effect.loop`; in every iteration
`effect.segment` fires.  The loop-update clause then subtracts the cost of the
segment index as left by the body (so after a wrap the cost of index
`segment - totalSegments` is subtracted, computed against the updated
progression, exactly as the captured closure sees it). -/
def walk {σ : Type} (L : LoopDef σ) (segments : ℕ) (maxS : Option ℕ) :
    ℕ → WalkSt σ → Option (WalkSt σ)
  | 0, w =>
    if L.cost w.prog w.seg ≤ w.rem ∧ segLT w.seg maxS = true then none else some w
  | fuel + 1, w =>
    if L.cost w.prog w.seg ≤ w.rem ∧ segLT w.seg maxS = true then
      if (segments : ℤ) - 1 ≤ w.seg then
        let prog' : Progression := ⟨0, w.prog.completed + segments, w.prog.total + 1⟩
        let s' : ℤ := w.seg - segments
        let st' := applyOpt L.eff.onSeg (applyOpt L.eff.onLoop w.st)
        walk L segments maxS fuel
          ⟨prog', s' + 1, w.rem - L.cost prog' s', st',
            w.nLoop + cntOpt L.eff.onLoop, w.nSeg + cntOpt L.eff.onSeg⟩
      else
        walk L segments maxS fuel
          ⟨w.prog, w.seg + 1, w.rem - L.cost w.prog w.seg,
            applyOpt L.eff.onSeg w.st, w.nLoop, w.nSeg + cntOpt L.eff.onSeg⟩
    else some w

/-- Result of one loop-bearing tick: the updated progression and effect state,
the boolean the source returns (`additionalProgress && segment < maxSegments`,
with JavaScript truthiness of the number `additionalProgress`), plus
instrumentation mirroring the source's local variables: the computed
`additionalProgress`, the final local `segment`, and the effect invocation
counters. -/
structure TickOut (σ : Type) where
  prog : Progression
  st : σ
  cont : Bool
  delta : ℚ
  seg : ℤ
  nLoop : ℕ
  nSeg : ℕ
deriving DecidableEq

/-- The loop-handling part of `Predictor.tick`: re-derive the segment index
from `progression.progress`, add `tickProgress(segment) * (manaCost / ticks)`
(the factor is passed in as `ratio`) to the local and the stored progress,
walk the completed segments, and report whether ticking should continue. -/
def loopTick {σ : Type} (L : LoopDef σ) (segments : ℕ) (ratio : ℚ) (fuel : ℕ)
    (prog : Progression) (stats : List (String × ℚ)) (st : σ) : Option (TickOut σ) :=
  let maxS := L.max.map (· * segments)
  match seek (L.cost prog) fuel 0 prog.progress with
  | none => none
  | some (s0, p0) =>
    let delta := L.tickF prog stats st s0 * ratio
    let prog1 : Progression := ⟨prog.progress + delta, prog.completed, prog.total⟩
    match walk L segments maxS fuel ⟨prog1, s0, p0 + delta, st, 0, 0⟩ with
    | none => none
    | some w =>
      some ⟨w.prog, w.st, decide (delta ≠ 0) && segLT w.seg maxS, delta, w.seg, w.nLoop, w.nSeg⟩

/-- The mutable resources and skills that effects act on. -/
structure RS where
  res : List (String × ℚ)
  skl : List (String × ℚ)
deriving DecidableEq

/-- A `Koviko.Prediction`: the bound action, the optional instant `effect`,
the optional loop rule, and `canStart` (a fixed boolean is embedded as a
constant function of the resources). -/
structure Pred where
  name : String
  action : Action
  effect : Option (RS → RS)
  loop : Option (LoopDef RS)
  canStart : List (String × ℚ) → Bool

/-- `Koviko.Predictor~State` minus the snapshots: accumulated stat experience,
resources/skills, and per-action progressions. -/
structure SimState where
  stats : List (String × ℚ)
  rs : RS
  progress : List (String × Progression)
deriving DecidableEq

def setMana (st : SimState) (v : ℚ) : SimState :=
  { st with rs := { st.rs with res := aset st.rs.res "mana" v } }

/-- `state.resources.mana--` at the top of each tick of `Predictor.predict`. -/
def decMana (st : SimState) : SimState :=
  setMana st (aget st.rs.res "mana" - 1)

/-- `Predictor.tick`: apply the per-tick stat experience, then run the loop
engine if the prediction has a loop (reading the progression stored under the
prediction's name; the source would crash if it were absent, embedded as
`none`).  Non-loop predictions return `true` after the experience update. -/
def tickP (h : Host) (fuel : ℕ) (P : Pred) (ticksQ : ℚ) (st : SimState) :
    Option (SimState × Bool) :=
  let stats' := applyExp h P.action ticksQ st.stats
  match P.loop with
  | none => some ({ st with stats := stats' }, true)
  | some L =>
    match alookup st.progress P.name with
    | none => none
    | some prog =>
      (loopTick L P.action.segments (P.action.manaCost / ticksQ) fuel prog stats' st.rs).map
        fun o => (⟨stats', o.st, aset st.progress P.name o.prog⟩, o.cont)

/-- The tick loop of `Predictor.predict`: run the given number of remaining
ticks, decrementing mana before each tick and stopping early when the tick
returns `false`. -/
def runTicks (h : Host) (fuel : ℕ) (P : Pred) (ticksQ : ℚ) :
    ℕ → SimState → Option SimState
  | 0, st => some st
  | n + 1, st =>
    match tickP h fuel P ticksQ (decMana st) with
    | none => none
    | some (st2, cont) => if cont then runTicks h fuel P ticksQ n st2 else some st2

/-- `Predictor.predict`: compute the tick count once from the current stats,
then run that many ticks. -/
def predictM (h : Host) (fuel : ℕ) (P : Pred) (st : SimState) : Option SimState :=
  let t := updateTicks h P.action st.stats
  runTicks h fuel P (t : ℚ) t.toNat st

/-- The Adventure Guild accounting of `Predictor.update`: only for the listed
action named `"Adventure Guild"`, subtract `adventures * 200` from mana,
measure the repetition's mana delta into the running total, then add
`adventures * 200` back.  Returns the updated total and the state after the
restore. -/
def agAdjust (aname : String) (cm total : ℚ) (st1 : SimState) : ℚ × SimState :=
  let stA := if aname = "Adventure Guild"
    then setMana st1 (aget st1.rs.res "mana" - aget st1.rs.res "adventures" * 200)
    else st1
  let total' := total + (cm - aget stA.rs.res "mana")
  let stB := if aname = "Adventure Guild"
    then setMana stA (aget stA.rs.res "mana" + aget stA.rs.res "adventures" * 200)
    else stA
  (total', stB)

/-- Result of one repetition (or of a whole entry): the state, the running
mana total, the running time total, and the entry's validity flag. -/
structure RepOut where
  st : SimState
  total : ℚ
  ttime : ℚ
  valid : Bool
deriving DecidableEq

/-- One repetition of the entry loop of `Predictor.update` (after `canStart`
passed): save the current mana, run the prediction, and-in the mana validity
check, do the Adventure Guild accounting and the total/time bookkeeping, then
apply the instant effect and the loop `end` effect. -/
def runRep (h : Host) (fuel : ℕ) (P : Pred) (aname : String) (st : SimState)
    (total ttime : ℚ) (valid : Bool) : Option RepOut :=
  let cm := aget st.rs.res "mana"
  (predictM h fuel P st).bind fun st1 =>
    let valid' := valid && decide (0 ≤ aget st1.rs.res "mana")
    let ts := agAdjust aname cm total st1
    let spent := cm - aget ts.2.rs.res "mana"
    let ttime' := ttime + h.timeConv (aget ts.2.rs.res "town") spent
    let stC := match P.effect with
      | some e => { ts.2 with rs := e ts.2.rs }
      | none => ts.2
    let stD := match P.loop with
      | some L =>
        match L.eff.onEnd with
        | some e => { stC with rs := e stC.rs }
        | none => stC
      | none => stC
    some ⟨stD, ts.1, ttime', valid'⟩

/-- The repetition loop of `Predictor.update` for one entry:
`for (let loop = 0; loop < listedAction.loops; loop++)`, breaking the first
time `canStart` evaluates false against the current resources. -/
def runEntry (h : Host) (fuel : ℕ) (P : Pred) (aname : String) :
    ℕ → SimState → ℚ → ℚ → Bool → Option RepOut
  | 0, st, total, ttime, valid => some ⟨st, total, ttime, valid⟩
  | n + 1, st, total, ttime, valid =>
    if P.canStart st.rs.res then
      (runRep h fuel P aname st total ttime valid).bind fun r =>
        runEntry h fuel P aname n r.st r.total r.ttime r.valid
    else some ⟨st, total, ttime, valid⟩

/-- Per-entry report data: the listed action's name, the entry's validity
flag, and the resources as displayed after the entry. -/
structure Report where
  aname : String
  isValid : Bool
  res : List (String × ℚ)
deriving DecidableEq

/-- Lazy creation of an entry's progression in `state.progress`, seeded with
zero progress, zero completed segments and the host's historical loop
total. -/
def initProg (h : Host) (P : Pred) (st : SimState) : SimState :=
  match P.loop with
  | none => st
  | some _ =>
    match alookup st.progress P.name with
    | some _ => st
    | none => { st with progress := aset st.progress P.name ⟨0, 0, h.histTotal P.name⟩ }

/-- The entry loop of `Predictor.update` (DOM rendering and the stat/skill
snapshot display omitted): unknown action names are skipped without a report,
known ones get their progression initialized, their repetitions run with a
fresh `isValid = true`, and a report emitted. -/
def updateList (h : Host) (fuel : ℕ) (preds : String → Option Pred) :
    List (String × ℕ) → SimState → ℚ → ℚ →
    Option (List Report × SimState × ℚ × ℚ)
  | [], st, total, ttime => some ([], st, total, ttime)
  | (name, loops) :: rest, st, total, ttime =>
    match preds name with
    | none => updateList h fuel preds rest st total ttime
    | some P =>
      let st0 := initProg h P st
      (runEntry h fuel P name loops st0 total ttime true).bind fun r =>
        (updateList h fuel preds rest r.st r.total r.ttime).map fun out =>
          (⟨name, r.valid, r.st.rs.res⟩ :: out.1, out.2)

/-- The fresh simulation state built at the top of `Predictor.update`:
resources `{mana: 250, town: 0}`, all stats at `0`, skills seeded from the
host's current totals, no progressions. -/
def initState (h : Host) (skls : List (String × ℚ)) : SimState :=
  ⟨h.statList.map (fun n => (n, 0)), ⟨[("mana", 250), ("town", 0)], skls⟩, []⟩

/-- One tracked attribute of a `Koviko.Snapshot`: the last value and the delta
(`null` until a second observation). -/
structure SnapVal where
  value : ℚ
  delta : Option ℚ
deriving DecidableEq

/-- A `Koviko.Snapshot`: tracked attributes plus the `_isInitialized` flag.
A snapshot constructed without attributes starts as `⟨[], false⟩`. -/
structure Snapshot where
  attrs : List (String × SnapVal)
  inited : Bool
deriving DecidableEq

/-- `Snapshot.init`: store each provided attribute with a `null` delta and
mark the snapshot initialized. -/
def snapInit (sn : Snapshot) (input : List (String × ℚ)) : Snapshot :=
  ⟨input.foldl (fun l kv => aset l kv.1 ⟨kv.2, none⟩) sn.attrs, true⟩

/-- `Snapshot.snap`: initialize first if not yet initialized, then for every
tracked attribute set `delta` to the new value minus the stored value and
update the stored value.  (For a tracked key absent from `input` JavaScript
would produce `NaN`; here the read defaults to `0` and theorems assume the
key is provided.) -/
def snap (sn : Snapshot) (input : List (String × ℚ)) : Snapshot :=
  let sn1 := if sn.inited then sn else snapInit sn input
  ⟨sn1.attrs.map (fun kv =>
      (kv.1, ⟨aget input kv.1, some (aget input kv.1 - kv.2.value)⟩)), true⟩

/-- Scenario loop rule: two segments per loop, constant segment cost `100`,
constant tick progress `50`, with (identity) segment and loop effects
present so the invocation counters track them. -/
def scenarioLoop : LoopDef Unit :=
  ⟨none, fun _ _ => 100, fun _ _ _ _ => 50, ⟨some id, some id, none⟩⟩

/-- Adversarial loop rule whose tick progress is negative. -/
def negTickLoop : LoopDef Unit :=
  ⟨none, fun _ _ => 100, fun _ _ _ _ => -1, ⟨none, none, none⟩⟩

/-- Loop rule whose single tick overshoots one full segment cost. -/
def overshootLoop : LoopDef Unit :=
  ⟨none, fun _ _ => 100, fun _ _ _ _ => 150, ⟨none, none, none⟩⟩

/-- Loop rule that makes zero progress per tick, so ticking stops at once. -/
def stopLoop : LoopDef RS :=
  ⟨none, fun _ _ => 1, fun _ _ _ _ => 0, ⟨none, none, none⟩⟩

/-- Prediction bound to `stopLoop`. -/
def stopPred : Pred :=
  ⟨"W", ⟨[], 1, 1, 1⟩, none, some stopLoop, fun _ => true⟩

/-- State with 5 mana and a fresh progression for `stopPred`. -/
def stopState : SimState :=
  ⟨[], ⟨[("mana", 5)], []⟩, [("W", ⟨0, 0, 0⟩)]⟩

/-- Concrete host: single stat `"Str"`, flat level/bonus curves, zero time
conversion. -/
def cexHost : Host :=
  ⟨["Str"], fun _ => 0, fun _ => 1, fun _ => 0, fun _ _ => 0⟩

/-- Concrete non-loop prediction whose repetition costs 4 ticks. -/
def cexPred : Pred :=
  ⟨"X", ⟨[("Str", 1)], 1, 4, 1⟩, none, none, fun _ => true⟩

/-- Concrete state with 3 mana (one repetition of `cexPred` overdraws it). -/
def cexState : SimState :=
  ⟨[("Str", 0)], ⟨[("mana", 3)], []⟩, []⟩

/-- Catalog containing only `cexPred` under the name `"X"`. -/
def cexPreds : String → Option Pred :=
  fun n => if n = "X" then some cexPred else none

/-- Prediction whose `canStart` is always false. -/
def noStartPred : Pred :=
  ⟨"N", ⟨[], 1, 1, 1⟩, none, none, fun _ => false⟩

/-- Catalog containing only `noStartPred` under the name `"N"`. -/
def noStartPreds : String → Option Pred :=
  fun n => if n = "N" then some noStartPred else none

theorem alookup_aset_self {α : Type} (l : List (String × α)) (k : String) (v : α) :
    alookup (aset l k v) k = some v := by
  induction l with
  | nil => simp [aset, alookup]
  | cons p t ih =>
    by_cases h : p.1 = k
    · simp [aset, alookup, h]
    · simp [aset, alookup, h, ih]

theorem alookup_aset_ne {α : Type} (l : List (String × α)) (k k' : String) (v : α)
    (h : k ≠ k') : alookup (aset l k v) k' = alookup l k' := by
  induction l with
  | nil => simp [aset, alookup, h]
  | cons p t ih =>
    by_cases hp : p.1 = k
    · simp [aset, alookup, hp, h]
    · simp only [aset, if_neg hp]
      by_cases hp' : p.1 = k'
      · simp [alookup, hp']
      · simp [alookup, hp', ih]

theorem aset_aset_same {α : Type} (l : List (String × α)) (k : String) (a b : α) :
    aset (aset l k a) k b = aset l k b := by
  induction l with
  | nil => simp [aset]
  | cons p t ih =>
    by_cases h : p.1 = k
    · simp [aset, h]
    · simp [aset, h, ih]

theorem aset_self_of_alookup {α : Type} (l : List (String × α)) (k : String) (v : α)
    (h : alookup l k = some v) : aset l k v = l := by
  induction l with
  | nil => simp [alookup] at h
  | cons p t ih =>
    by_cases hp : p.1 = k
    · simp only [alookup, if_pos hp] at h
      cases p
      simp_all [aset]
    · simp only [alookup, if_neg hp] at h
      simp [aset, hp, ih h]

theorem aget_aset_self (l : List (String × ℚ)) (k : String) (v : ℚ) :
    aget (aset l k v) k = v := by
  simp [aget, alookup_aset_self]

theorem aget_aset_ne (l : List (String × ℚ)) (k k' : String) (v : ℚ) (h : k ≠ k') :
    aget (aset l k v) k' = aget l k' := by
  simp [aget, alookup_aset_ne l k k' v h]

theorem foldl_add_eq_sum (f : String → ℚ) (l : List String) (c : ℚ) :
    l.foldl (fun acc i => acc + f i) c = c + (l.map f).sum := by
  induction l generalizing c with
  | nil => simp
  | cons i t ih => simp [ih]; ring

theorem alookup_eq_none_of_not_mem {α : Type} (l : List (String × α)) (k : String)
    (h : k ∉ l.map Prod.fst) : alookup l k = none := by
  induction l with
  | nil => rfl
  | cons p t ih =>
    simp only [List.map_cons, List.mem_cons, not_or] at h
    have hne : p.1 ≠ k := fun he => h.1 he.symm
    simp [alookup, hne, ih h.2]

theorem alookup_of_mem_nodup {α : Type} (l : List (String × α)) (k : String) (v : α)
    (hnd : (l.map Prod.fst).Nodup) (hm : (k, v) ∈ l) : alookup l k = some v := by
  induction l with
  | nil => simp at hm
  | cons p t ih =>
    simp only [List.map_cons, List.nodup_cons] at hnd
    rcases List.mem_cons.1 hm with he | ht
    · subst he; simp [alookup]
    · have hne : p.1 ≠ k := by
        intro he
        exact hnd.1 (he ▸ (List.mem_map.2 ⟨(k, v), ht, rfl⟩))
      simp [alookup, hne, ih hnd.2 ht]

/-- Claim C1: `updateTicks` returns `ceil(manaCost * cost - 1e-6)` where
`cost` is the sum over stat names present in both `a.stats` and `s` of
`a.stats[stat] / (1 + levelFromExp(s[stat]) / 100)` — provided the global
stat list has no duplicates, the action's stat keys are distinct, and every
stat key of the action occurs in the global stat list (all true in the host
game).  In particular a rule with `statCost = {strength: 10}`,
`manaCost() = 1` and strength experience `0` at level `0` yields `10`. -/
theorem updateTicks_spec (h : Host) (a : Action) (s : List (String × ℚ))
    (hnd : h.statList.Nodup) (hknd : (a.stats.map Prod.fst).Nodup)
    (hsub : ∀ kv ∈ a.stats, kv.1 ∈ h.statList) :
    updateTicks h a s = ⌈a.manaCost * costSpec h a s - 1 / 1000000⌉ ∧
    (∀ lvlF bonusF histF timeF, lvlF 0 = 0 →
      updateTicks ⟨["strength"], lvlF, bonusF, histF, timeF⟩
        ⟨[("strength", 10)], 1, 1, 1⟩ [("strength", 0)] = 10) := by
  constructor
  · set f : String → ℚ := fun i =>
      match alookup a.stats i, alookup s i with
      | some w, some e => w / (1 + h.lvl e / 100)
      | _, _ => 0 with hf
    have hfold : (h.statList.foldl (fun cost i => cost + f i) 0) = (h.statList.map f).sum := by
      simpa using foldl_add_eq_sum f h.statList 0
    have hsum1 : (h.statList.map f).sum = ∑ i ∈ h.statList.toFinset, f i := by
      rw [List.sum_toFinset f hnd]
    have hsum2 : ∑ i ∈ h.statList.toFinset, f i
        = ∑ i ∈ (a.stats.map Prod.fst).toFinset, f i := by
      refine (Finset.sum_subset ?_ ?_).symm
      · intro i hi
        simp only [List.mem_toFinset, List.mem_map] at hi ⊢
        obtain ⟨kv, hkv, rfl⟩ := hi
        exact hsub kv hkv
      · intro i _ hi
        simp only [List.mem_toFinset, List.mem_map] at hi
        have : alookup a.stats i = none := by
          apply alookup_eq_none_of_not_mem
          intro hmem
          rcases List.mem_map.1 hmem with ⟨kv, hkv, hkv1⟩
          exact hi ⟨kv, hkv, hkv1⟩
        simp [hf, this]
    have hsum3 : ∑ i ∈ (a.stats.map Prod.fst).toFinset, f i
        = ((a.stats.map Prod.fst).map f).sum := by
      rw [List.sum_toFinset f hknd]
    have hsum4 : ((a.stats.map Prod.fst).map f).sum = costSpec h a s := by
      rw [List.map_map]
      unfold costSpec
      congr 1
      apply List.map_congr_left
      intro kv hkv
      have : alookup a.stats kv.1 = some kv.2 := by
        apply alookup_of_mem_nodup a.stats kv.1 kv.2 hknd
        simpa using hkv
      simp only [Function.comp_apply, hf, this]
      cases hsk : alookup s kv.1 <;> rfl
    unfold updateTicks
    rw [hfold, hsum1, hsum2, hsum3, hsum4]
  · intro lvlF bonusF histF timeF hlvl
    have hu : updateTicks ⟨["strength"], lvlF, bonusF, histF, timeF⟩
        ⟨[("strength", 10)], 1, 1, 1⟩ [("strength", 0)]
        = ⌈(1 : ℚ) * ((0 : ℚ) + 10 / (1 + lvlF 0 / 100)) - 1 / 1000000⌉ := rfl
    rw [hu, hlvl]
    rw [show (1 : ℚ) * ((0 : ℚ) + 10 / (1 + 0 / 100)) - 1 / 1000000
        = 9999999 / 1000000 by norm_num]
    rw [Int.ceil_eq_iff]
    constructor <;> norm_num

/-- Witness for C1 at a concrete instance: stat list `["strength"]`,
`statCost = {strength: 10}`, `manaCost = 1`, strength experience `0` with a
level curve sending `0` to level `0`. -/
theorem updateTicks_spec_witness :
    updateTicks ⟨["strength"], fun _ => 0, fun _ => 1, fun _ => 1, fun _ _ => 0⟩
        ⟨[("strength", 10)], 1, 1, 1⟩ [("strength", 0)]
      = ⌈(1 : ℚ) * costSpec ⟨["strength"], fun _ => 0, fun _ => 1, fun _ => 1, fun _ _ => 0⟩
          ⟨[("strength", 10)], 1, 1, 1⟩ [("strength", 0)] - 1 / 1000000⌉ ∧
    updateTicks ⟨["strength"], fun _ => 0, fun _ => 1, fun _ => 1, fun _ _ => 0⟩
        ⟨[("strength", 10)], 1, 1, 1⟩ [("strength", 0)] = 10 := by
  have h := updateTicks_spec
    ⟨["strength"], fun _ => 0, fun _ => 1, fun _ => 1, fun _ _ => 0⟩
    ⟨[("strength", 10)], 1, 1, 1⟩ [("strength", 0)]
    (by simp) (by simp) (by intro kv hkv; simp at hkv; subst hkv; simp)
  exact ⟨h.1, h.2 (fun _ => 0) (fun _ => 1) (fun _ => 1) (fun _ _ => 0) rfl⟩

set_option maxHeartbeats 2000000 in
/-- Claim C2: when the walk reaches segment index `segmentsPerLoop - 1` with
remaining progress at least that segment's cost (and below `maxSegments`), a
loop completes: `progress` resets to 0, `completed` grows by `segmentsPerLoop`,
`total` grows by 1, the local segment index wraps back by `segmentsPerLoop`
(so the walk continues at index 0 after the loop-update increment),
`effect.loop` fires exactly once and `effect.segment` once for the crossed
segment.  Concretely, with `segmentsPerLoop = 2`, constant cost `100` and
per-tick progress `50`, accumulating 200 progress units over four ticks raises
`completed` by 2 and `total` by 1, firing `effect.loop` exactly once (on tick
4) and `effect.segment` exactly twice (on ticks 2 and 4). -/
theorem loop_completion_step :
    (∀ (σ : Type) (L : LoopDef σ) (segments : ℕ) (maxS : Option ℕ) (fuel : ℕ)
        (w : WalkSt σ),
      w.seg = (segments : ℤ) - 1 →
      L.cost w.prog w.seg ≤ w.rem →
      segLT w.seg maxS = true →
      walk L segments maxS (fuel + 1) w
        = walk L segments maxS fuel
            ⟨⟨0, w.prog.completed + segments, w.prog.total + 1⟩, 0,
              w.rem - L.cost ⟨0, w.prog.completed + segments, w.prog.total + 1⟩ (-1),
              applyOpt L.eff.onSeg (applyOpt L.eff.onLoop w.st),
              w.nLoop + cntOpt L.eff.onLoop, w.nSeg + cntOpt L.eff.onSeg⟩) ∧
    (loopTick scenarioLoop 2 1 8 ⟨0, 0, 0⟩ [] ()
        = some ⟨⟨50, 0, 0⟩, (), true, 50, 0, 0, 0⟩ ∧
      loopTick scenarioLoop 2 1 8 ⟨50, 0, 0⟩ [] ()
        = some ⟨⟨100, 0, 0⟩, (), true, 50, 1, 0, 1⟩ ∧
      loopTick scenarioLoop 2 1 8 ⟨100, 0, 0⟩ [] ()
        = some ⟨⟨150, 0, 0⟩, (), true, 50, 1, 0, 0⟩ ∧
      loopTick scenarioLoop 2 1 8 ⟨150, 0, 0⟩ [] ()
        = some ⟨⟨0, 2, 1⟩, (), true, 50, 0, 1, 1⟩) := by
  constructor
  · intro σ L segments maxS fuel w hseg hcost hmax
    simp only [walk]
    rw [if_pos (And.intro hcost hmax), if_pos (le_of_eq hseg.symm)]
    rw [hseg]
    norm_num
  · refine ⟨?_, ?_, ?_, ?_⟩ <;>
      norm_num [loopTick, seek, walk, scenarioLoop, segLT, applyOpt, cntOpt]

/-- Witness for C2: one wrap iteration of the walk at segment index `1` of a
2-segment loop with remaining progress `100` against cost `100`. -/
theorem loop_completion_step_witness :
    walk scenarioLoop 2 none (7 + 1) ⟨⟨200, 0, 0⟩, 1, 100, (), 0, 0⟩
      = walk scenarioLoop 2 none 7
          ⟨⟨0, 0 + 2, 0 + 1⟩, 0,
            100 - scenarioLoop.cost ⟨0, 0 + 2, 0 + 1⟩ (-1),
            applyOpt scenarioLoop.eff.onSeg (applyOpt scenarioLoop.eff.onLoop ()),
            0 + cntOpt scenarioLoop.eff.onLoop, 0 + cntOpt scenarioLoop.eff.onSeg⟩ :=
  loop_completion_step.1 Unit scenarioLoop 2 none 7 ⟨⟨200, 0, 0⟩, 1, 100, (), 0, 0⟩
    (by decide) (by decide) (by decide)

set_option maxHeartbeats 2000000 in
/-- Counterexample to claim C3 as stated: a loop rule whose tick progress is
negative.  The delta `-1` is non-positive and the segment index is below
`maxSegments`, so the claim demands a `false` return, but the source's
JavaScript truthiness test `additionalProgress && segment < maxSegments` only
yields `false` for a delta of exactly `0`, and here returns `true`. -/
theorem tick_continue_cex :
    loopTick negTickLoop 2 1 5 ⟨0, 0, 0⟩ [] ()
      = some ⟨⟨-1, 0, 0⟩, (), true, -1, 0, 0, 0⟩ ∧
    ((-1 : ℚ) ≤ 0) ∧
    segLT 0 (negTickLoop.max.map (· * 2)) = true :=
  ⟨by norm_num [loopTick, seek, walk, negTickLoop, segLT, applyOpt, cntOpt],
    by norm_num, by decide⟩

/-- Claim C3 (amended): the per-tick loop step returns `false` iff the
computed delta was exactly zero or the final segment index has reached
`maxSegments` (a negative delta — which no catalog rule produces — counts as
truthy and does not stop); actions with no loop always return `true` after
applying the tick experience. -/
theorem tick_continue_amended :
    (∀ (σ : Type) (L : LoopDef σ) (segments : ℕ) (ratio : ℚ) (fuel : ℕ)
        (prog : Progression) (stats : List (String × ℚ)) (st : σ) (o : TickOut σ),
      loopTick L segments ratio fuel prog stats st = some o →
      (o.cont = false ↔ o.delta = 0 ∨ segLT o.seg (L.max.map (· * segments)) = false)) ∧
    (∀ (h : Host) (fuel : ℕ) (P : Pred) (ticksQ : ℚ) (st : SimState),
      P.loop = none →
      tickP h fuel P ticksQ st
        = some (⟨applyExp h P.action ticksQ st.stats, st.rs, st.progress⟩, true)) := by
  constructor
  · intro σ L segments ratio fuel prog stats st o ho
    unfold loopTick at ho
    dsimp only at ho
    split at ho
    · exact absurd ho (by simp)
    · split at ho
      · exact absurd ho (by simp)
      · simp only [Option.some.injEq] at ho
        subst ho
        dsimp only
        constructor
        · intro hc
          rcases Bool.and_eq_false_iff.1 hc with hc | hc
          · exact Or.inl (of_not_not (of_decide_eq_false hc))
          · exact Or.inr hc
        · intro hc
          rcases hc with hc | hc
          · simp [hc]
          · simp [hc]
  · intro h fuel P ticksQ st hP
    unfold tickP
    rw [hP]

set_option maxHeartbeats 2000000 in
/-- Witness for C3 (amended) at the first scenario tick: delta `50`, no
`maxSegments`, so the returned flag is not `false`. -/
theorem tick_continue_amended_witness :
    ((⟨⟨50, 0, 0⟩, (), true, 50, 0, 0, 0⟩ : TickOut Unit).cont = false ↔
      (⟨⟨50, 0, 0⟩, (), true, 50, 0, 0, 0⟩ : TickOut Unit).delta = 0 ∨
      segLT (⟨⟨50, 0, 0⟩, (), true, 50, 0, 0, 0⟩ : TickOut Unit).seg
        (scenarioLoop.max.map (· * 2)) = false) :=
  tick_continue_amended.1 Unit scenarioLoop 2 1 8 ⟨0, 0, 0⟩ [] ()
    ⟨⟨50, 0, 0⟩, (), true, 50, 0, 0, 0⟩
    (by norm_num [loopTick, seek, walk, scenarioLoop, segLT, applyOpt, cntOpt])

theorem walk_dvd {σ : Type} (L : LoopDef σ) (segments : ℕ) (maxS : Option ℕ) :
    ∀ (fuel : ℕ) (w w' : WalkSt σ), walk L segments maxS fuel w = some w' →
      segments ∣ w.prog.completed → segments ∣ w'.prog.completed := by
  intro fuel
  induction fuel with
  | zero =>
    intro w w' hw hd
    unfold walk at hw
    split at hw
    · exact absurd hw (by simp)
    · simp only [Option.some.injEq] at hw
      subst hw
      exact hd
  | succ fuel ih =>
    intro w w' hw hd
    unfold walk at hw
    split at hw
    · split at hw
      · exact ih _ _ hw (dvd_add hd dvd_rfl)
      · exact ih _ _ hw hd
    · simp only [Option.some.injEq] at hw
      subst hw
      exact hd

/-- Claim C8: an entry's progression is seeded with `completed = 0`, and one
tick of the loop engine only ever advances `completed` by whole
`segmentsPerLoop` increments, so divisibility by `segmentsPerLoop` is
preserved. -/
theorem completed_multiple_invariant :
    (∀ (h : Host) (P : Pred) (st : SimState) (L : LoopDef RS),
      P.loop = some L → alookup st.progress P.name = none →
      ∃ pr, alookup (initProg h P st).progress P.name = some pr ∧ pr.completed = 0) ∧
    (∀ (σ : Type) (L : LoopDef σ) (segments : ℕ) (ratio : ℚ) (fuel : ℕ)
        (prog : Progression) (stats : List (String × ℚ)) (st : σ) (o : TickOut σ),
      loopTick L segments ratio fuel prog stats st = some o →
      segments ∣ prog.completed → segments ∣ o.prog.completed) := by
  constructor
  · intro h P st L hL hnone
    refine ⟨⟨0, 0, h.histTotal P.name⟩, ?_, rfl⟩
    unfold initProg
    rw [hL, hnone]
    exact alookup_aset_self _ _ _
  · intro σ L segments ratio fuel prog stats st o ho hd
    unfold loopTick at ho
    dsimp only at ho
    split at ho
    · exact absurd ho (by simp)
    · split at ho
      · exact absurd ho (by simp)
      · simp only [Option.some.injEq] at ho
        subst ho
        dsimp only
        rename_i w hw
        exact walk_dvd L segments _ fuel _ w hw hd

set_option maxHeartbeats 2000000 in
/-- Witness for C8: the scenario tick that wraps a loop (`completed` goes from
`0` to `2`, both multiples of `2`), together with a freshly seeded
progression. -/
theorem completed_multiple_invariant_witness :
    (∃ pr, alookup (initProg cexHost stopPred
        (⟨[], ⟨[], []⟩, []⟩ : SimState)).progress stopPred.name = some pr ∧
      pr.completed = 0) ∧
    2 ∣ (⟨⟨0, 2, 1⟩, (), true, 50, 0, 1, 1⟩ : TickOut Unit).prog.completed := by
  constructor
  · exact completed_multiple_invariant.1 cexHost stopPred ⟨[], ⟨[], []⟩, []⟩ stopLoop rfl rfl
  · exact completed_multiple_invariant.2 Unit scenarioLoop 2 1 8 ⟨150, 0, 0⟩ [] ()
      ⟨⟨0, 2, 1⟩, (), true, 50, 0, 1, 1⟩
      (by norm_num [loopTick, seek, walk, scenarioLoop, segLT, applyOpt, cntOpt]) ⟨0, rfl⟩

theorem sum_range_split (c : ℤ → ℚ) (a b : ℕ) :
    ∑ k ∈ Finset.range (a + b), c (k : ℤ)
      = (∑ k ∈ Finset.range a, c (k : ℤ))
        + ∑ k ∈ Finset.range b, c ((a : ℤ) + (k : ℤ)) := by
  induction b with
  | zero => simp
  | succ b ih =>
    rw [show a + (b + 1) = (a + b) + 1 by omega]
    rw [Finset.sum_range_succ, Finset.sum_range_succ, ih]
    push_cast
    ring

theorem seek_elim (c : ℤ → ℚ) :
    ∀ (fuel : ℕ) (s : ℤ) (p : ℚ) (s' : ℤ) (p' : ℚ),
      seek c fuel s p = some (s', p') →
      ∃ n : ℕ, s' = s + n ∧
        p = p' + ∑ k ∈ Finset.range n, c (s + (k : ℤ)) ∧
        (0 ≤ p → 0 ≤ p') ∧
        p' < c s' := by
  intro fuel
  induction fuel with
  | zero =>
    intro s p s' p' h
    unfold seek at h
    split at h
    · exact absurd h (by simp)
    · rename_i hc
      simp only [Option.some.injEq, Prod.mk.injEq] at h
      obtain ⟨rfl, rfl⟩ := h
      exact ⟨0, by simp, by simp, fun hp => hp, lt_of_not_le hc⟩
  | succ fuel ih =>
    intro s p s' p' h
    unfold seek at h
    split at h
    · rename_i hc
      obtain ⟨n, hs, hp, hnn, hlt⟩ := ih (s + 1) (p - c s) s' p' h
      refine ⟨n + 1, ?_, ?_, ?_, hlt⟩
      · rw [hs]; push_cast; ring
      · rw [Finset.sum_range_succ']
        simp only [Nat.cast_zero, add_zero, Nat.cast_add, Nat.cast_one]
        have hcg : ∑ k ∈ Finset.range n, c (s + ((k : ℤ) + 1))
            = ∑ k ∈ Finset.range n, c (s + 1 + (k : ℤ)) :=
          Finset.sum_congr rfl (fun k _ => by congr 1; ring)
        rw [hcg]
        linarith [hp]
      · intro _
        exact hnn (sub_nonneg.2 hc)
    · rename_i hc
      simp only [Option.some.injEq, Prod.mk.injEq] at h
      obtain ⟨rfl, rfl⟩ := h
      exact ⟨0, by simp, by simp, fun hp => hp, lt_of_not_le hc⟩

theorem walk_total_mono {σ : Type} (L : LoopDef σ) (segments : ℕ) (maxS : Option ℕ) :
    ∀ (fuel : ℕ) (w w' : WalkSt σ), walk L segments maxS fuel w = some w' →
      w.prog.total ≤ w'.prog.total := by
  intro fuel
  induction fuel with
  | zero =>
    intro w w' hw
    unfold walk at hw
    split at hw
    · exact absurd hw (by simp)
    · simp only [Option.some.injEq] at hw
      subst hw
      exact le_refl _
  | succ fuel ih =>
    intro w w' hw
    unfold walk at hw
    split at hw
    · split at hw
      · exact le_trans (Nat.le_succ _) (ih _ _ hw)
      · have h3 := ih _ _ hw
        exact h3
    · simp only [Option.some.injEq] at hw
      subst hw
      exact le_refl _

theorem walk_prog_cases {σ : Type} (L : LoopDef σ) (segments : ℕ) (maxS : Option ℕ) :
    ∀ (fuel : ℕ) (w w' : WalkSt σ), walk L segments maxS fuel w = some w' →
      w'.prog = w.prog ∨ w'.prog.progress = 0 := by
  intro fuel
  induction fuel with
  | zero =>
    intro w w' hw
    unfold walk at hw
    split at hw
    · exact absurd hw (by simp)
    · simp only [Option.some.injEq] at hw
      subst hw
      exact Or.inl rfl
  | succ fuel ih =>
    intro w w' hw
    unfold walk at hw
    split at hw
    · split at hw
      · rcases ih _ _ hw with h | h
        · right
          rw [h]
        · right
          exact h
      · have h3 := ih _ _ hw
        exact h3
    · simp only [Option.some.injEq] at hw
      subst hw
      exact Or.inl rfl

theorem walk_no_wrap {σ : Type} (L : LoopDef σ) (segments : ℕ) (maxS : Option ℕ) :
    ∀ (fuel : ℕ) (w w' : WalkSt σ), walk L segments maxS fuel w = some w' →
      w'.prog = w.prog →
      ∃ n : ℕ, w'.seg = w.seg + n ∧
        w.rem = w'.rem + ∑ k ∈ Finset.range n, L.cost w.prog (w.seg + (k : ℤ)) ∧
        (0 ≤ w.rem → 0 ≤ w'.rem) ∧
        ¬(L.cost w'.prog w'.seg ≤ w'.rem ∧ segLT w'.seg maxS = true) := by
  intro fuel
  induction fuel with
  | zero =>
    intro w w' hw hp
    unfold walk at hw
    split at hw
    · exact absurd hw (by simp)
    · rename_i hc
      simp only [Option.some.injEq] at hw
      subst hw
      exact ⟨0, by simp, by simp, fun h => h, hc⟩
  | succ fuel ih =>
    intro w w' hw hp
    unfold walk at hw
    split at hw
    · rename_i hc
      split at hw
      · exfalso
        have h1 : w.prog.total + 1 ≤ w'.prog.total :=
          walk_total_mono L segments maxS fuel _ _ hw
        have h2 : w'.prog.total = w.prog.total := by rw [hp]
        omega
      · obtain ⟨n, hs, hr, hnn, hex⟩ := ih _ _ hw hp
        dsimp only at hs hr hnn
        refine ⟨n + 1, ?_, ?_, ?_, hex⟩
        · rw [hs]; push_cast; ring
        · rw [Finset.sum_range_succ']
          simp only [Nat.cast_zero, add_zero, Nat.cast_add, Nat.cast_one]
          have hcg : ∑ k ∈ Finset.range n, L.cost w.prog (w.seg + ((k : ℤ) + 1))
              = ∑ k ∈ Finset.range n, L.cost w.prog (w.seg + 1 + (k : ℤ)) :=
            Finset.sum_congr rfl (fun k _ => by congr 1; ring)
          rw [hcg]
          linarith [hr]
        · intro _
          exact hnn (sub_nonneg.2 hc.1)
    · rename_i hc
      simp only [Option.some.injEq] at hw
      subst hw
      exact ⟨0, by simp, by simp, fun h => h, hc⟩

set_option maxHeartbeats 2000000 in
/-- Counterexample to claim C7 as stated: with constant segment cost `100`,
two segments per loop and a single tick of progress `150`, the stored
`progression.progress` after the tick is `150`, the re-derived current segment
is `1`, and `150` is not less than that segment's cost `100`
(`progressUnits` is partial progress into the current *loop*, not the current
segment). -/
theorem progress_invariant_cex :
    loopTick overshootLoop 2 1 5 ⟨0, 0, 0⟩ [] ()
      = some ⟨⟨150, 0, 0⟩, (), true, 150, 1, 0, 0⟩ ∧
    seek (overshootLoop.cost ⟨150, 0, 0⟩) 5 0 150 = some (1, 50) ∧
    ¬((150 : ℚ) < overshootLoop.cost ⟨150, 0, 0⟩ 1) := by
  refine ⟨?_, ?_, ?_⟩
  · norm_num [loopTick, seek, walk, overshootLoop, segLT, applyOpt, cntOpt]
  · norm_num [seek, overshootLoop]
  · norm_num [overshootLoop]

/-- Claim C7 (amended): for an uncapped loop rule whose segment costs depend
only on `completed`, with non-negative tick progress and
a non-negative starting `progressUnits`, after a tick the stored
`progressUnits` is non-negative and is either `0` (a loop just completed) or
decomposes as the total cost of the completed segments of the current loop
plus a remainder that is non-negative and strictly below the current
segment's cost.  (The claim as stated — `progressUnits` itself below the
current segment's cost — fails; see the counterexample.) -/
theorem progress_invariant_amended {σ : Type} (L : LoopDef σ) (segments : ℕ) (ratio : ℚ)
    (fuel : ℕ) (prog : Progression) (stats : List (String × ℚ)) (st : σ) (o : TickOut σ)
    (hmax : L.max = none)
    (hcc : ∀ pr1 pr2 k, pr1.completed = pr2.completed → L.cost pr1 k = L.cost pr2 k)
    (hδ : ∀ k, 0 ≤ L.tickF prog stats st k)
    (hratio : 0 ≤ ratio)
    (hp : 0 ≤ prog.progress)
    (ho : loopTick L segments ratio fuel prog stats st = some o) :
    0 ≤ o.prog.progress ∧
    (o.prog.progress = 0 ∨
      ∃ (n : ℕ) (r : ℚ),
        o.prog.progress = (∑ k ∈ Finset.range n, L.cost o.prog (k : ℤ)) + r ∧
        0 ≤ r ∧ r < L.cost o.prog (n : ℤ)) := by
  have hmaxS : L.max.map (· * segments) = none := by rw [hmax]; rfl
  unfold loopTick at ho
  dsimp only at ho
  split at ho
  · exact absurd ho (by simp)
  · rename_i sp s0 p0 hseek
    split at ho
    · exact absurd ho (by simp)
    · rename_i w hwalk
      simp only [Option.some.injEq] at ho
      subst ho
      dsimp only
      have hδ0 : 0 ≤ L.tickF prog stats st s0 * ratio := mul_nonneg (hδ s0) hratio
      obtain ⟨n0, hs0, hsum0, hp0, _⟩ :=
        seek_elim (L.cost prog) fuel 0 prog.progress s0 p0 hseek
      have hp0' : 0 ≤ p0 := hp0 hp
      have hs0' : s0 = (n0 : ℤ) := by simpa using hs0
      rcases walk_prog_cases L segments _ fuel _ w hwalk with hP | hP
      · obtain ⟨n1, hs1, hsum1, hnn1, hex1⟩ := walk_no_wrap L segments _ fuel _ w hwalk hP
        dsimp only at hs1 hsum1 hnn1
        rw [hmaxS] at hex1
        have hlt : w.rem < L.cost w.prog w.seg := by
          by_contra hge
          exact hex1 ⟨le_of_not_lt hge, rfl⟩
        have hwr : 0 ≤ w.rem := hnn1 (add_nonneg hp0' hδ0)
        have hc1 : ∀ k : ℤ, L.cost prog k
            = L.cost (⟨prog.progress + L.tickF prog stats st s0 * ratio,
                prog.completed, prog.total⟩ : Progression) k :=
          fun k => hcc _ _ k rfl
        have e0 : prog.progress
            = p0 + ∑ k ∈ Finset.range n0,
                L.cost (⟨prog.progress + L.tickF prog stats st s0 * ratio,
                  prog.completed, prog.total⟩ : Progression) (k : ℤ) := by
          refine hsum0.trans ?_
          congr 1
          refine Finset.sum_congr rfl (fun k _ => ?_)
          rw [zero_add]
          exact hc1 _
        have e1 : p0 + L.tickF prog stats st s0 * ratio
            = w.rem + ∑ k ∈ Finset.range n1,
                L.cost (⟨prog.progress + L.tickF prog stats st s0 * ratio,
                  prog.completed, prog.total⟩ : Progression) ((n0 : ℤ) + (k : ℤ)) := by
          refine hsum1.trans ?_
          congr 1
          refine Finset.sum_congr rfl (fun k _ => ?_)
          congr 1
          rw [hs0']
        have hwseg : w.seg = ((n0 + n1 : ℕ) : ℤ) := by
          rw [hs1, hs0']
          push_cast
          ring
        refine ⟨?_, Or.inr ⟨n0 + n1, w.rem, ?_, hwr, ?_⟩⟩
        · rw [hP]
          exact add_nonneg hp hδ0
        · rw [hP]
          dsimp only
          rw [sum_range_split]
          linarith [e0, e1]
        · rw [hP] at hlt ⊢
          rw [hwseg] at hlt
          exact hlt
      · constructor
        · rw [hP]
        · exact Or.inl hP

set_option maxHeartbeats 2000000 in
/-- Witness for C7 (amended) at the wrapping scenario tick: after the tick the
stored progress is `0`, which is trivially non-negative and the zero
alternative of the invariant. -/
theorem progress_invariant_amended_witness :
    0 ≤ (⟨⟨0, 2, 1⟩, (), true, 50, 0, 1, 1⟩ : TickOut Unit).prog.progress ∧
    ((⟨⟨0, 2, 1⟩, (), true, 50, 0, 1, 1⟩ : TickOut Unit).prog.progress = 0 ∨
      ∃ (n : ℕ) (r : ℚ),
        (⟨⟨0, 2, 1⟩, (), true, 50, 0, 1, 1⟩ : TickOut Unit).prog.progress
          = (∑ k ∈ Finset.range n,
              scenarioLoop.cost (⟨⟨0, 2, 1⟩, (), true, 50, 0, 1, 1⟩ : TickOut Unit).prog (k : ℤ)) + r ∧
        0 ≤ r ∧
        r < scenarioLoop.cost (⟨⟨0, 2, 1⟩, (), true, 50, 0, 1, 1⟩ : TickOut Unit).prog (n : ℤ)) :=
  progress_invariant_amended scenarioLoop 2 1 8 ⟨150, 0, 0⟩ [] ()
    ⟨⟨0, 2, 1⟩, (), true, 50, 0, 1, 1⟩ rfl
    (fun p1 p2 k _ => rfl)
    (fun k => by norm_num [scenarioLoop])
    (by norm_num) (by norm_num)
    (by norm_num [loopTick, seek, walk, scenarioLoop, segLT, applyOpt, cntOpt])

theorem initProg_rs (h : Host) (P : Pred) (st : SimState) : (initProg h P st).rs = st.rs := by
  unfold initProg
  cases P.loop with
  | none => rfl
  | some L => cases alookup st.progress P.name <;> rfl

theorem tickP_stats (h : Host) (fuel : ℕ) (P : Pred) (tq : ℚ) (s st2 : SimState) (c : Bool)
    (ht : tickP h fuel P tq s = some (st2, c)) :
    st2.stats = applyExp h P.action tq s.stats := by
  unfold tickP at ht
  dsimp only at ht
  split at ht
  · simp only [Option.some.injEq, Prod.mk.injEq] at ht
    rw [← ht.1]
  · split at ht
    · exact absurd ht (by simp)
    · rw [Option.map_eq_some'] at ht
      obtain ⟨o, _, ho2⟩ := ht
      simp only [Prod.mk.injEq] at ho2
      rw [← ho2.1]

theorem runRep_valid_thread (h : Host) (fuel : ℕ) (P : Pred) (an : String) (st : SimState)
    (total tt : ℚ) (v : Bool) :
    runRep h fuel P an st total tt v
      = (runRep h fuel P an st total tt true).map
          (fun r => ⟨r.st, r.total, r.ttime, v && r.valid⟩) := by
  unfold runRep
  cases hp : predictM h fuel P st with
  | none => rfl
  | some st1 => rfl

/-- Counterexample to claim C4 as stated: the validity flag is re-created as
`true` for every list entry, so it is not sticky "for the remainder of the
run".  Entry 1 (one repetition of a 4-tick action starting with 3 mana) drives
mana to `-1` and reports `isValid = false`; entry 2 (the same action with a
zero repeat count, while mana is still negative) reports `isValid = true`. -/
theorem cex_predict : predictM cexHost 9 cexPred cexState
    = some ⟨[("Str", 4)], ⟨[("mana", -1)], []⟩, []⟩ := by
  have h0 : updateTicks cexHost cexPred.action cexState.stats = 4 := by
    have h1 : updateTicks cexHost cexPred.action cexState.stats
        = ⌈(4 : ℚ) * ((0 : ℚ) + 1 / (1 + 0 / 100)) - 1 / 1000000⌉ := rfl
    rw [h1]
    rw [show (4 : ℚ) * ((0 : ℚ) + 1 / (1 + 0 / 100)) - 1 / 1000000
        = 3999999 / 1000000 by norm_num]
    rw [Int.ceil_eq_iff]
    constructor <;> norm_num
  simp only [predictM]
  rw [h0]
  norm_num [runTicks, tickP, applyExp, decMana, setMana, aget, aset, alookup,
    cexHost, cexPred, cexState]

theorem cex_runRep : runRep cexHost 9 cexPred "X" cexState 0 0 true
    = some ⟨⟨[("Str", 4)], ⟨[("mana", -1)], []⟩, []⟩, 4, 0, false⟩ := by
  unfold runRep
  rw [cex_predict]
  norm_num [agAdjust, aget, aset, alookup, cexHost, cexState,
    show cexPred.loop = none from rfl, show cexPred.effect = none from rfl,
    show ("X" : String) ≠ "Adventure Guild" from by decide,
    show ("mana" : String) ≠ "adventures" from by decide]

theorem cex_entry1 : runEntry cexHost 9 cexPred "X" 1 cexState 0 0 true
    = some ⟨⟨[("Str", 4)], ⟨[("mana", -1)], []⟩, []⟩, 4, 0, false⟩ := by
  norm_num [runEntry, cex_runRep, show cexPred.canStart cexState.rs.res = true from rfl]

set_option maxHeartbeats 1000000 in
theorem validity_flag_cex :
    updateList cexHost 9 cexPreds [("X", 1), ("X", 0)] cexState 0 0
      = some ([⟨"X", false, [("mana", -1)]⟩, ⟨"X", true, [("mana", -1)]⟩],
          ⟨[("Str", 4)], ⟨[("mana", -1)], []⟩, []⟩, 4, 0) ∧
    aget [("mana", -1)] "mana" < 0 := by
  constructor
  · have hcs2 : runEntry cexHost 9 cexPred "X" 0
        ⟨[("Str", 4)], ⟨[("mana", -1)], []⟩, []⟩ 4 0 true
        = some ⟨⟨[("Str", 4)], ⟨[("mana", -1)], []⟩, []⟩, 4, 0, true⟩ := rfl
    norm_num [updateList, initProg, cex_entry1, hcs2,
      show cexPreds "X" = some cexPred from rfl,
      show cexPred.loop = none from rfl]
  · norm_num [aget, alookup]

/-- Claim C4 (amended): an entry's validity flag threads through its
repetitions as a sticky conjunction — the entry's result is the result with a
`true` flag, conjoined with the incoming flag, so once false it stays false
for that entry and the state, mana total and time total are computed
independently of it (the simulation keeps consuming mana without stopping);
a repetition whose end-of-repetition mana check is negative forces the flag
false.  (As stated the claim fails: the flag is not sticky across entries —
see the counterexample — and mana dips strictly inside a repetition that
effects later repay are not checked.) -/
theorem validity_flag_amended :
    (∀ (h : Host) (fuel : ℕ) (P : Pred) (an : String) (n : ℕ) (st : SimState)
        (total tt : ℚ) (v : Bool),
      runEntry h fuel P an n st total tt v
        = (runEntry h fuel P an n st total tt true).map
            (fun r => ⟨r.st, r.total, r.ttime, v && r.valid⟩)) ∧
    (∀ (h : Host) (fuel : ℕ) (P : Pred) (an : String) (st st1 : SimState)
        (total tt : ℚ) (v : Bool) (out : RepOut),
      predictM h fuel P st = some st1 →
      aget st1.rs.res "mana" < 0 →
      runRep h fuel P an st total tt v = some out →
      out.valid = false) := by
  constructor
  · intro h fuel P an n
    induction n with
    | zero =>
      intro st total tt v
      simp [runEntry, Bool.and_true]
    | succ n ih =>
      intro st total tt v
      unfold runEntry
      by_cases hcs : P.canStart st.rs.res
      · rw [if_pos hcs, if_pos hcs]
        rw [runRep_valid_thread h fuel P an st total tt v]
        cases hr : runRep h fuel P an st total tt true with
        | none => rfl
        | some r =>
          simp only [Option.map_some', Option.some_bind]
          rw [ih r.st r.total r.ttime (v && r.valid), ih r.st r.total r.ttime r.valid]
          cases hx : runEntry h fuel P an n r.st r.total r.ttime true with
          | none => rfl
          | some x => simp [Bool.and_assoc]
      · rw [if_neg hcs, if_neg hcs]
        simp [Bool.and_true]
  · intro h fuel P an st st1 total tt v out hp hneg hrun
    unfold runRep at hrun
    rw [hp] at hrun
    simp only [Option.some_bind, Option.some.injEq] at hrun
    rw [← hrun]
    dsimp only
    rw [decide_eq_false (not_le.2 hneg)]
    exact Bool.and_false v

/-- Witness for C4 (amended): the concrete overdraw repetition; applying the
amended theorem's negative-mana part yields the `false` flag. -/
theorem validity_flag_amended_witness :
    runRep cexHost 9 cexPred "X" cexState 0 0 true
      = some ⟨⟨[("Str", 4)], ⟨[("mana", -1)], []⟩, []⟩, 4, 0, false⟩ ∧
    (⟨⟨[("Str", 4)], ⟨[("mana", -1)], []⟩, []⟩, 4, 0, false⟩ : RepOut).valid = false :=
  ⟨cex_runRep, validity_flag_amended.2 cexHost 9 cexPred "X" cexState
    ⟨[("Str", 4)], ⟨[("mana", -1)], []⟩, []⟩ 0 0 true
    ⟨⟨[("Str", 4)], ⟨[("mana", -1)], []⟩, []⟩, 4, 0, false⟩
    cex_predict (by norm_num [aget, alookup]) cex_runRep⟩

/-- Claim C5: for a repetition of the `"Adventure Guild"` entry the running
total receives the repetition's mana delta plus `adventures * 200` (the mana
the in-progress headcount injected is backed out of the delta measurement),
the adjustment is applied and then reverted around the measurement only, so
the state handed on (to the time conversion and the effects) is exactly the
post-prediction state — the mana resource is unchanged by the adjustment.
Every other action name leaves both the delta and the state untouched. -/
theorem adventure_guild_accounting (cm total : ℚ) (st1 : SimState) (m : ℚ)
    (hm : alookup st1.rs.res "mana" = some m) :
    (agAdjust "Adventure Guild" cm total st1).1
      = total + (cm - m) + aget st1.rs.res "adventures" * 200 ∧
    (agAdjust "Adventure Guild" cm total st1).2 = st1 ∧
    (∀ an, an ≠ "Adventure Guild" → agAdjust an cm total st1 = (total + (cm - m), st1)) := by
  have hmv : aget st1.rs.res "mana" = m := by simp [aget, hm]
  refine ⟨?_, ?_, ?_⟩
  · simp only [agAdjust, setMana, eq_self_iff_true, if_true]
    rw [aget_aset_self, hmv]
    ring
  · simp only [agAdjust, setMana, eq_self_iff_true, if_true]
    rw [aget_aset_self, aget_aset_ne _ _ _ _ (by decide), aset_aset_same, hmv]
    rw [show m - aget st1.rs.res "adventures" * 200 + aget st1.rs.res "adventures" * 200
        = m by ring]
    rw [aset_self_of_alookup _ _ _ hm]
  · intro an han
    simp only [agAdjust, if_neg han]
    rw [hmv]

/-- Witness for C5 at a concrete post-prediction state with 7 mana and 2
adventurers: the recorded delta is `(10 - 7) + 2 * 200` and the state is
returned unchanged. -/
theorem adventure_guild_accounting_witness :
    (agAdjust "Adventure Guild" 10 0 ⟨[], ⟨[("mana", 7), ("adventures", 2)], []⟩, []⟩).1
      = 0 + (10 - 7)
        + aget (⟨[], ⟨[("mana", 7), ("adventures", 2)], []⟩, []⟩ : SimState).rs.res
            "adventures" * 200 ∧
    (agAdjust "Adventure Guild" 10 0 ⟨[], ⟨[("mana", 7), ("adventures", 2)], []⟩, []⟩).2
      = ⟨[], ⟨[("mana", 7), ("adventures", 2)], []⟩, []⟩ ∧
    (∀ an, an ≠ "Adventure Guild" →
      agAdjust an 10 0 ⟨[], ⟨[("mana", 7), ("adventures", 2)], []⟩, []⟩
        = (0 + (10 - 7), ⟨[], ⟨[("mana", 7), ("adventures", 2)], []⟩, []⟩)) :=
  adventure_guild_accounting 10 0 ⟨[], ⟨[("mana", 7), ("adventures", 2)], []⟩, []⟩ 7
    (by decide)

/-- Claim C6: `canStart` is re-evaluated against the current resources before
every repetition (the repetition loop tests it at each entry); the first
`false` stops the entry's remaining repetitions on the spot, leaving state,
totals and flag untouched, and at the list level the entry still emits a
report — with `isValid = true` and the unchanged resources when `canStart`
was false before the first repetition — while the remaining entries continue
to be simulated. -/
theorem canStart_gating :
    (∀ (h : Host) (fuel : ℕ) (P : Pred) (an : String) (n : ℕ) (st : SimState)
        (total tt : ℚ) (v : Bool),
      P.canStart st.rs.res = false →
      runEntry h fuel P an (n + 1) st total tt v = some ⟨st, total, tt, v⟩) ∧
    (∀ (h : Host) (fuel : ℕ) (preds : String → Option Pred) (name : String) (loops : ℕ)
        (rest : List (String × ℕ)) (st : SimState) (total tt : ℚ) (P : Pred),
      preds name = some P →
      P.canStart (initProg h P st).rs.res = false →
      updateList h fuel preds ((name, loops + 1) :: rest) st total tt
        = (updateList h fuel preds rest (initProg h P st) total tt).map
            (fun out => (⟨name, true, st.rs.res⟩ :: out.1, out.2))) := by
  have hstop : ∀ (h : Host) (fuel : ℕ) (P : Pred) (an : String) (n : ℕ) (st : SimState)
      (total tt : ℚ) (v : Bool),
      P.canStart st.rs.res = false →
      runEntry h fuel P an (n + 1) st total tt v = some ⟨st, total, tt, v⟩ := by
    intro h fuel P an n st total tt v hcs
    unfold runEntry
    rw [if_neg (by simp [hcs])]
  refine ⟨hstop, ?_⟩
  intro h fuel preds name loops rest st total tt P hpreds hcs
  simp only [updateList]
  rw [hpreds]
  dsimp only
  rw [hstop h fuel P name loops (initProg h P st) total tt true hcs]
  simp only [Option.some_bind]
  rw [initProg_rs]

/-- Witness for C6: a catalog entry whose `canStart` is constantly false, run
for one repetition as the only list entry. -/
theorem canStart_gating_witness :
    updateList cexHost 3 noStartPreds [("N", 0 + 1)] cexState 0 0
      = (updateList cexHost 3 noStartPreds []
            (initProg cexHost noStartPred cexState) 0 0).map
          (fun out => (⟨"N", true, cexState.rs.res⟩ :: out.1, out.2)) :=
  canStart_gating.2 cexHost 3 noStartPreds "N" 0 [] cexState 0 0 noStartPred rfl rfl

/-- Claim C10: mana is decremented by exactly 1 immediately before each tick
is processed, and a tick accrues its stat experience before the loop engine's
stop signal is evaluated; hence when the engine signals stop, the returned
repetition state is the tick's own output — its mana already includes that
tick's decrement and its stats already include that tick's experience. -/
theorem tick_order_effects (h : Host) (fuel : ℕ) (P : Pred) (tq : ℚ) (n : ℕ)
    (st st2 : SimState)
    (hstop : tickP h fuel P tq (decMana st) = some (st2, false)) :
    runTicks h fuel P tq (n + 1) st = some st2 ∧
    aget (decMana st).rs.res "mana" = aget st.rs.res "mana" - 1 ∧
    st2.stats = applyExp h P.action tq (decMana st).stats := by
  refine ⟨?_, ?_, tickP_stats h fuel P tq _ st2 false hstop⟩
  · unfold runTicks
    rw [hstop]
    rfl
  · unfold decMana setMana
    dsimp only
    rw [aget_aset_self]

/-- Witness for C10: a loop rule with zero tick progress stops on the first
tick of a 3-tick repetition; the result has the 1-mana decrement and the
tick's experience update applied. -/
theorem tick_order_effects_witness :
    runTicks cexHost 5 stopPred 1 (2 + 1) stopState
      = some ⟨[], ⟨[("mana", 4)], []⟩, [("W", ⟨0, 0, 0⟩)]⟩ ∧
    aget (decMana stopState).rs.res "mana" = aget stopState.rs.res "mana" - 1 ∧
    (⟨[], ⟨[("mana", 4)], []⟩, [("W", ⟨0, 0, 0⟩)]⟩ : SimState).stats
      = applyExp cexHost stopPred.action 1 (decMana stopState).stats :=
  tick_order_effects cexHost 5 stopPred 1 2 stopState
    ⟨[], ⟨[("mana", 4)], []⟩, [("W", ⟨0, 0, 0⟩)]⟩
    (by norm_num [tickP, applyExp, loopTick, seek, walk, stopLoop, stopPred, stopState,
      decMana, setMana, aget, aset, alookup, segLT, cexHost])

theorem alookup_map_val {α β : Type} (F : String → α → β) (l : List (String × α)) (k : String) :
    alookup (l.map (fun kv => (kv.1, F kv.1 kv.2))) k = (alookup l k).map (F k) := by
  induction l with
  | nil => rfl
  | cons p t ih =>
    by_cases hp : p.1 = k
    · simp [alookup, hp]
    · simp [alookup, hp, ih]

theorem foldl_aset_lookup (input : List (String × ℚ)) :
    ∀ (l : List (String × SnapVal)) (k : String), (input.map Prod.fst).Nodup →
      alookup (input.foldl (fun l kv => aset l kv.1 ⟨kv.2, none⟩) l) k
        = match alookup input k with
          | some v => some ⟨v, none⟩
          | none => alookup l k := by
  induction input with
  | nil =>
    intro l k _
    rfl
  | cons kv t ih =>
    intro l k hnd
    simp only [List.map_cons, List.nodup_cons] at hnd
    simp only [List.foldl_cons]
    rw [ih _ k hnd.2]
    by_cases hk : kv.1 = k
    · subst hk
      have ht : alookup t kv.1 = none := alookup_eq_none_of_not_mem t kv.1 hnd.1
      rw [ht]
      simp [alookup, alookup_aset_self]
    · have hcons : alookup (kv :: t) k = alookup t k := by simp [alookup, hk]
      rw [hcons, alookup_aset_ne _ _ _ _ hk]

/-- Counterexample to claim C9 as stated: a snapshot constructed without
attributes observes for the first time via `snap`, which initializes and then
immediately diffs in the same call — so after the *first* observation the
delta is already `0`, not `null`. -/
theorem snapshot_delta_cex :
    snap ⟨[], false⟩ [("a", 5)] = ⟨[("a", ⟨5, some 0⟩)], true⟩ ∧
    (some (0 : ℚ) ≠ (none : Option ℚ)) := by
  constructor
  · norm_num [snap, snapInit, aset, aget, alookup]
  · simp

/-- Claim C9 (amended): after `init` every tracked key stores the provided
value with a `null` delta; a `snap` on an initialized snapshot sets, for each
tracked key, the delta to the newly provided value minus the previously
stored value and the value to the newly provided input; a first observation
made via `snap` on an uninitialized snapshot initializes and immediately
diffs, yielding delta `0` (= value - value) rather than `null`. -/
theorem snapshot_delta_amended :
    (∀ (attrs : List (String × SnapVal)) (input : List (String × ℚ)) (k : String),
      (input.map Prod.fst).Nodup →
      alookup (snapInit ⟨attrs, false⟩ input).attrs k
        = match alookup input k with
          | some v => some ⟨v, none⟩
          | none => alookup attrs k) ∧
    (∀ (sn : Snapshot) (input : List (String × ℚ)) (k : String) (sv : SnapVal) (v : ℚ),
      sn.inited = true → alookup sn.attrs k = some sv → alookup input k = some v →
      alookup (snap sn input).attrs k = some ⟨v, some (v - sv.value)⟩) ∧
    (∀ (input : List (String × ℚ)) (k : String) (v : ℚ),
      (input.map Prod.fst).Nodup → alookup input k = some v →
      alookup (snap ⟨[], false⟩ input).attrs k = some ⟨v, some 0⟩) := by
  have hinit : ∀ (attrs : List (String × SnapVal)) (input : List (String × ℚ)) (k : String),
      (input.map Prod.fst).Nodup →
      alookup (snapInit ⟨attrs, false⟩ input).attrs k
        = match alookup input k with
          | some v => some ⟨v, none⟩
          | none => alookup attrs k := by
    intro attrs input k hnd
    unfold snapInit
    exact foldl_aset_lookup input attrs k hnd
  refine ⟨hinit, ?_, ?_⟩
  · intro sn input k sv v hin hl hv
    have hag : aget input k = v := by simp [aget, hv]
    unfold snap
    rw [if_pos hin]
    dsimp only
    rw [alookup_map_val
      (fun k sv => (⟨aget input k, some (aget input k - sv.value)⟩ : SnapVal)) sn.attrs k]
    rw [hl]
    simp [hag]
  · intro input k v hnd hv
    have hag : aget input k = v := by simp [aget, hv]
    unfold snap
    rw [if_neg (by decide)]
    dsimp only
    rw [alookup_map_val
      (fun k sv => (⟨aget input k, some (aget input k - sv.value)⟩ : SnapVal))
      (snapInit ⟨[], false⟩ input).attrs k]
    rw [hinit [] input k hnd, hv]
    simp [hag]

/-- Witness for C9 (amended): re-observing a tracked key `"a"` stored at `1`
with new value `5` yields value `5` and delta `5 - 1`. -/
theorem snapshot_delta_amended_witness :
    alookup (snap ⟨[("a", ⟨1, none⟩)], true⟩ [("a", 5)]).attrs "a"
      = some ⟨5, some (5 - (⟨1, none⟩ : SnapVal).value)⟩ :=
  snapshot_delta_amended.2.1 ⟨[("a", ⟨1, none⟩)], true⟩ [("a", 5)] "a" ⟨1, none⟩ 5
    rfl (by decide) (by decide)

end IdleLoops
